import Mathlib

/-!
Verification development for the dual-momentum MVP repository.

The momentum engine (momentum.py) is embedded shallowly:

* Calendar dates (Python `datetime` values) are modelled as day numbers
  (`Int`, days since 1970-01-01).  `timedelta` arithmetic is addition on
  day numbers and `datetime.weekday` is a residue mod 7.  The civil
  (year, month, day) view needed by the month-unit code paths is provided
  by executable conversions `daysFromCivil` / `civilFromDays` (the
  standard civil-calendar algorithms), and `dateutil.relativedelta`
  month shifts are `addMonths` (shift the month, clamp the day).
* Price series dates are day numbers and closes are `Option Rat`
  (`none` models a stored Python `None`); the `YYYY-MM-DD` strings the
  code compares lexicographically and the `%Y-%m` prefixes it matches
  order and group exactly as the (year, month, day) triples do, so date
  comparisons become comparisons of day numbers and year-month pairs.
* The HTTP fetch performed by `calculate` is a parameter (a function
  from the requested tickers and window to a price dataset).
* `n` is a natural number (the service validates `n >= 1`), and the
  unit together with its unit-dependent `as_of_period` parse is the
  inductive `UnitPeriod`.
-/

set_option linter.unusedVariables false

namespace DM

/-- Leap-year test, as in the proleptic Gregorian calendar used by
Python `datetime`. -/
def isLeap (y : Int) : Bool :=
  (y % 4 == 0 && y % 100 != 0) || (y % 400 == 0)

/-- Number of days in a month of the proleptic Gregorian calendar. -/
def lastDayOfMonth (y m : Int) : Int :=
  if m == 2 then (if isLeap y then 29 else 28)
  else if m == 4 || m == 6 || m == 9 || m == 11 then 30 else 31

/-- Day number (days since 1970-01-01) of a civil date, by the standard
civil-from-days algorithm.  Lean integer `/` and `%` are Euclidean, which
for the positive divisors used here agrees with floor division. -/
def daysFromCivil (y m d : Int) : Int :=
  let y2 := if m ≤ 2 then y - 1 else y
  let era := y2 / 400
  let yoe := y2 - era * 400
  let mp := (m + 9) % 12
  let doy := (153 * mp + 2) / 5 + d - 1
  let doe := yoe * 365 + yoe / 4 - yoe / 100 + doy
  era * 146097 + doe - 719468

/-- Civil date (year, month, day) of a day number; inverse of
`daysFromCivil` on valid dates. -/
def civilFromDays (z0 : Int) : Int × Int × Int :=
  let z := z0 + 719468
  let era := z / 146097
  let doe := z - era * 146097
  let yoe := (doe - doe / 1460 + doe / 36524 - doe / 146096) / 365
  let y := yoe + era * 400
  let doy := doe - (365 * yoe + yoe / 4 - yoe / 100)
  let mp := (5 * doy + 2) / 153
  let d := doy - (153 * mp + 2) / 5 + 1
  let m := mp + (if mp < 10 then 3 else -9)
  (if m ≤ 2 then y + 1 else y, m, d)

/-- Shift a civil date by `k` months, clamping the day-of-month to the
length of the target month: the semantics of
`dateutil.relativedelta(months=k)`. -/
def addMonths (y m d k : Int) : Int × Int × Int :=
  let mm := m - 1 + k
  let y2 := y + mm / 12
  let m2 := mm % 12 + 1
  (y2, m2, min d (lastDayOfMonth y2 m2))

/-- Python `datetime.weekday()`: Monday is 0, Sunday is 6.
1970-01-01 (day number 0) was a Thursday, weekday 3. -/
def pyWeekday (date : Int) : Int := (date + 3) % 7

/-- momentum.round_to_saturday: `days_until_saturday = (5 - weekday) % 7`,
with the special case bumping 0 to 7 when the weekday is not Saturday
(unreachable, since that residue is 0 only when the weekday is 5); the
result is the date plus that offset. -/
def round_to_saturday (date : Int) : Int :=
  let days_until_saturday := (5 - pyWeekday date) % 7
  let days_until_saturday :=
    if days_until_saturday = 0 ∧ pyWeekday date ≠ 5 then 7
    else days_until_saturday
  date + days_until_saturday

/-- The unit of a request together with its unit-dependent
`as_of_period` parse: `YYYY-MM` for month (a year-month pair),
a full calendar date (a day number) for week and day. -/
inductive UnitPeriod where
  | month (year mon : Int)
  | week (asOf : Int)
  | day (asOf : Int)

/-- momentum.calculate_date_range.  Month branch:
`to_dt = datetime(year, month, 1) + relativedelta(months=1) - timedelta(days=1)`
and `from_dt = to_dt - relativedelta(months=n + 1)`.  Week branch: round
the as-of date to Saturday and go back `n + 1` weeks.  Day branch: go
back `(n + 20) * 2` calendar days. -/
def calculate_date_range (u : UnitPeriod) (n : Nat) : Int × Int :=
  match u with
  | .month year mon =>
      let next := addMonths year mon 1 1
      let to_dt := daysFromCivil next.1 next.2.1 next.2.2 - 1
      let toCiv := civilFromDays to_dt
      let fromCiv := addMonths toCiv.1 toCiv.2.1 toCiv.2.2 (-(n + 1 : Int))
      (daysFromCivil fromCiv.1 fromCiv.2.1 fromCiv.2.2, to_dt)
  | .week asOf =>
      let to_dt := round_to_saturday asOf
      (to_dt - 7 * (n + 1 : Int), to_dt)
  | .day asOf =>
      (asOf - 2 * (n + 20 : Int), asOf)

/-- One element of a price series: a trading day (day number) and a
closing price (`none` models a stored Python `None`). -/
structure PricePoint where
  date : Int
  close : Option Rat
deriving DecidableEq

/-- The normalized price dataset: ticker symbol to price series,
iterated in insertion order (a Python dict). -/
abbrev PriceDict := List (String × List PricePoint)

/-- Python `price_data[ticker]` guarded by `ticker in price_data`. -/
def lookupTicker (pd : PriceDict) (t : String) : Option (List PricePoint) :=
  (pd.find? (fun kv => kv.1 == t)).map (fun kv => kv.2)

/-- momentum.find_price_on_date: the close of the first series entry
whose date equals the target, else `None`. -/
def find_price_on_date (prices : List PricePoint) (target : Int) : Option Rat :=
  match prices.find? (fun p => p.date == target) with
  | some p => p.close
  | none => none

/-- The per-ticker date sets of momentum.find_common_anchors: one set of
distinct dates for every ticker whose series is non-empty. -/
def ticker_date_sets (pd : PriceDict) : List (List Int) :=
  ((pd.map Prod.snd).filter (fun ps => !ps.isEmpty)).map
    (fun ps => (ps.map PricePoint.date).dedup)

/-- `sorted(set.intersection(*date_sets))`: the distinct dates common to
every non-empty series, in ascending order. -/
def common_dates_of (pd : PriceDict) : List Int :=
  match ticker_date_sets pd with
  | [] => []
  | s :: rest =>
      List.insertionSort (· ≤ ·) (s.filter (fun d => rest.all (fun t => t.contains d)))

/-- Does the civil date of day number `d` fall in year `y`, month `m`?
This is the `d.startswith(target_prefix)` test of the month branches,
for a `%Y-%m` prefix. -/
def sameYM (d : Int) (y m : Int) : Bool :=
  let civ := civilFromDays d
  civ.1 == y && civ.2.1 == m

/-- One iteration of the week-unit past-anchor loop: state is the best
candidate so far with its distance (`none` is the initial state, with
`min_diff` infinite); a candidate strictly improving the distance and
within 7 days of the target is selected. -/
def weekPastStep (targetFriday : Int) (st : Option (Int × Nat)) (d : Int) :
    Option (Int × Nat) :=
  let diff := (d - targetFriday).natAbs
  match st with
  | none => if diff ≤ 7 then some (d, diff) else none
  | some (b, m) => if diff < m ∧ diff ≤ 7 then some (d, diff) else some (b, m)

/-- The current-anchor step of momentum.find_common_anchors: scan the
common dates from the most recent backwards for the first date matching
the unit-specific rule (previous-month prefix for month, the rounded
Saturday-ending week span for week, at most the as-of date for day). -/
def currentAnchorScan (common_dates : List Int) (u : UnitPeriod) : Option Int :=
  match u with
  | .month year mon =>
      let prev_month_end := daysFromCivil year mon 1 - 1
      let pciv := civilFromDays prev_month_end
      common_dates.reverse.find? (fun d => sameYM d pciv.1 pciv.2.1)
  | .week asOf =>
      let saturday := round_to_saturday asOf
      let week_start := saturday - 6
      common_dates.reverse.find? (fun d => decide (week_start ≤ d ∧ d ≤ saturday))
  | .day asOf =>
      common_dates.reverse.find? (fun d => decide (d ≤ asOf))

/-- The past-anchor step of momentum.find_common_anchors, given the
current anchor `c`: only common dates before the index of `c` are
candidates; month scans backwards for the `n`-months-earlier prefix,
week runs the closest-to-target-Friday loop, day takes the date exactly
`n` positions earlier when it exists. -/
def pastAnchorScan (common_dates : List Int) (u : UnitPeriod) (n : Nat) (c : Int) :
    Option Int :=
  let current_idx := common_dates.indexOf c
  match u with
  | .month _ _ =>
      let cciv := civilFromDays c
      let tciv := addMonths cciv.1 cciv.2.1 cciv.2.2 (-(n : Int))
      (common_dates.take current_idx).reverse.find?
        (fun d => sameYM d tciv.1 tciv.2.1)
  | .week _ =>
      let target_friday := c - 7 * (n : Int) - 1
      ((common_dates.take current_idx).foldl (weekPastStep target_friday) none).map
        Prod.fst
  | .day _ =>
      if n ≤ current_idx then common_dates.get? (current_idx - n) else none

/-- momentum.find_common_anchors: guards for an empty dataset, no
non-empty series and an empty intersection; then the unit-specific
current-anchor scan over the reversed common dates, and the
unit-specific past-anchor selection. -/
def find_common_anchors (pd : PriceDict) (u : UnitPeriod) (n : Nat) :
    Option Int × Option Int :=
  if pd.isEmpty then (none, none) else
  if (ticker_date_sets pd).isEmpty then (none, none) else
  let common_dates := common_dates_of pd
  if common_dates.isEmpty then (none, none) else
  match currentAnchorScan common_dates u with
  | none => (none, none)
  | some c => (some c, pastAnchorScan common_dates u n c)

/-- The body of the per-ticker loop of momentum.calculate: `None` for a
missing or empty series, else look up both anchors and, when both prices
resolve and the past close is non-zero, the simple return; the division
is only taken under the non-zero guard. -/
def tickerMomentum (price_data : PriceDict) (cur past : Int) (ticker : String) :
    Option Rat :=
  match lookupTicker price_data ticker with
  | none => none
  | some prices =>
      if prices.isEmpty then none else
      match find_price_on_date prices cur, find_price_on_date prices past with
      | some current_price, some past_price =>
          if past_price ≠ 0 then some (current_price / past_price - 1) else none
      | _, _ => none

/-- momentum.calculate, with the API fetch as a parameter: compute the
window, fetch, find anchors; with both anchors present map the
per-ticker computation over the tickers, otherwise one `None` per
ticker and an `N/A` anchor pair (modelled as `none`). -/
def calculate (fetch : List String → Int → Int → PriceDict)
    (tickers : List String) (u : UnitPeriod) (n : Nat) :
    List (Option Rat) × Option (Int × Int) :=
  let fromTo := calculate_date_range u n
  let price_data := fetch tickers fromTo.1 fromTo.2
  match find_common_anchors price_data u n with
  | (some c, some p) => (tickers.map (tickerMomentum price_data c p), some (c, p))
  | _ => (List.replicate tickers.length none, none)

/-!
Embedding of the price-data client (api_client.py).

The parsed JSON body is the inductive `JVal` (JSON booleans are omitted:
no claim involves them).  Python truthiness is `truthy`; `row.get(k)` on
a dict is `rowGetD` (returning `JVal.null` for Python `None`); `a or b`
is `pyOr`.  Exceptions are the error channel of `Except`: subscripting a
missing key, calling `.get` on a non-dict, an unhashable dict key, and
sorting incomparable keys are `Except.error`, and the blanket exception
handler of fetch_prices maps any error to the empty mapping.  The sort
comparability check is conservative about exotic date values (lists as
sort keys, which CPython can sometimes compare elementwise, are treated
as incomparable); the claims only exercise string and numeric dates.
The provider interaction is summarized by `HttpOutcome`: a timeout, a
transport error, an unparseable body, or a parsed response with a
status code and body.
-/

/-- A parsed JSON value. -/
inductive JVal where
  | null
  | num (q : Rat)
  | str (s : String)
  | list (xs : List JVal)
  | obj (kvs : List (String × JVal))

/-- Python truthiness of a JSON value: None, 0, the empty string, the
empty array and the empty object are falsy. -/
def truthy : JVal → Bool
  | .null => false
  | .num q => !(q == 0)
  | .str s => !(s == "")
  | .list xs => !xs.isEmpty
  | .obj kvs => !kvs.isEmpty

/-- Is the value Python `None`? -/
def isNull : JVal → Bool
  | .null => true
  | _ => false

/-- Key lookup in a JSON object (Python dict indexing result, before
the KeyError decision). -/
def jLookup (kvs : List (String × JVal)) (k : String) : Option JVal :=
  (kvs.find? (fun kv => kv.1 == k)).map (fun kv => kv.2)

/-- Python `row.get(k)`: the value under `k`, or `None`. -/
def rowGetD (kvs : List (String × JVal)) (k : String) : JVal :=
  (jLookup kvs k).getD .null

/-- Python `a or b`: `a` when truthy, else `b`. -/
def pyOr (a b : JVal) : JVal := if truthy a then a else b

/-- `row.get("symbol") or row.get("ticker") or row.get("Symbol")`. -/
def symOf (kvs : List (String × JVal)) : JVal :=
  pyOr (pyOr (rowGetD kvs "symbol") (rowGetD kvs "ticker")) (rowGetD kvs "Symbol")

/-- `row.get("date") or row.get("Date")`. -/
def dateOf (kvs : List (String × JVal)) : JVal :=
  pyOr (rowGetD kvs "date") (rowGetD kvs "Date")

/-- `row.get("close") or row.get("Close")`. -/
def closeOf (kvs : List (String × JVal)) : JVal :=
  pyOr (rowGetD kvs "close") (rowGetD kvs "Close")

/-- The keep test of the flat-list branch: `not sym or not d or c is
None` skips the row, so it is kept when the symbol and date are truthy
and the close is not `None`. -/
def keepRow (s d c : JVal) : Bool := truthy s && truthy d && !(isNull c)

/-- A hashable dict key produced by the flat-list grouping: the symbol
values that can key the `defaultdict` (strings and numbers; a list or
object symbol raises TypeError in Python and is the error case of
`symKey`). -/
inductive JKey where
  | s (s : String)
  | n (q : Rat)
deriving DecidableEq

/-- The normalized result mapping: key to series of (date, close)
pairs, in insertion order. -/
abbrev ApiDict := List (JKey × List (JVal × JVal))

/-- Hash the grouping key, raising (TypeError) on unhashable values. -/
def symKey : JVal → Except String JKey
  | .str s => .ok (.s s)
  | .num q => .ok (.n q)
  | _ => .error "TypeError: unhashable type"

/-- Mapping-shape conversion of one price object:
`{"date": p["date"], "close": p["close"]}`, raising KeyError when a key
is missing and TypeError when `p` is not an object. -/
def convertPricePoint (p : JVal) : Except String (JVal × JVal) :=
  match p with
  | .obj kvs =>
      match jLookup kvs "date", jLookup kvs "close" with
      | some d, some c => .ok (d, c)
      | none, _ => .error "KeyError: date"
      | some _, none => .error "KeyError: close"
  | _ => .error "TypeError: not subscriptable"

/-- The list comprehension over the price objects of one symbol; the
first raising element propagates. -/
def convertPrices : List JVal → Except String (List (JVal × JVal))
  | [] => .ok []
  | p :: rest =>
      match convertPricePoint p with
      | .error e => .error e
      | .ok v =>
          match convertPrices rest with
          | .error e => .error e
          | .ok vs => .ok (v :: vs)

/-- Mapping-shape conversion of one symbol entry: a falsy series value
yields the empty series, a truthy array is converted elementwise, and a
truthy non-array raises when its elements are subscripted. -/
def convertSeries (prices : JVal) : Except String (List (JVal × JVal)) :=
  if truthy prices then
    match prices with
    | .list ps => convertPrices ps
    | _ => .error "TypeError: iteration"
  else .ok []

/-- The mapping-shape branch: convert every entry of the response
object in order. -/
def normalizeDict : List (String × JVal) → Except String ApiDict
  | [] => .ok []
  | (ticker, prices) :: rest =>
      match convertSeries prices with
      | .error e => .error e
      | .ok entry =>
          match normalizeDict rest with
          | .error e => .error e
          | .ok r => .ok ((.s ticker, entry) :: r)

/-- Field extraction of one flat-list row (`row.get` raises
AttributeError on a non-dict row). -/
def rowFields (row : JVal) : Except String (JVal × JVal × JVal) :=
  match row with
  | .obj kvs => .ok (symOf kvs, dateOf kvs, closeOf kvs)
  | _ => .error "AttributeError: get"

/-- `tmp[sym].append(entry)` on the `defaultdict(list)`: append to the
existing group, or append a new group at the end. -/
def addRow (acc : ApiDict) (k : JKey) (e : JVal × JVal) : ApiDict :=
  match acc with
  | [] => [(k, [e])]
  | (k2, v) :: rest =>
      if k2 = k then (k2, v ++ [e]) :: rest else (k2, v) :: addRow rest k e

/-- The row loop of the flat-list branch: extract fields, skip rows
failing the keep test, group the rest by symbol. -/
def buildRows (acc : ApiDict) : List JVal → Except String ApiDict
  | [] => .ok acc
  | row :: rest =>
      match rowFields row with
      | .error e => .error e
      | .ok f =>
          if keepRow f.1 f.2.1 f.2.2 then
            match symKey f.1 with
            | .error e => .error e
            | .ok k => buildRows (addRow acc k (f.2.1, f.2.2)) rest
          else buildRows acc rest

/-- Ranking of JSON values by kind, used to totalize the sort-key
comparison below. -/
def clsOf : JVal → Nat
  | .null => 0
  | .num _ => 1
  | .str _ => 2
  | .list _ => 3
  | .obj _ => 4

/-- Comparison of two sort keys: within strings the lexicographic
order Python uses on date strings, within numbers the numeric order;
across kinds an arbitrary total order (the comparability check of
`sortE` keeps mixed-kind groups out of the sorted result, as they raise
in Python). -/
def jKeyLeB (a b : JVal) : Bool :=
  if clsOf a = clsOf b then
    match a, b with
    | .num x, .num y => decide (x ≤ y)
    | .str x, .str y => decide (x ≤ y)
    | _, _ => true
  else decide (clsOf a ≤ clsOf b)

/-- The order on series entries used by `sorted(v, key=lambda x:
x["date"])`: compare the date components. -/
def entryLe (x y : JVal × JVal) : Prop := jKeyLeB x.1 y.1 = true

instance : DecidableRel entryLe := fun x y => by
  unfold entryLe; infer_instance

/-- Does the entry carry a string date? -/
def entryDateIsStr (e : JVal × JVal) : Bool :=
  match e.1 with
  | .str _ => true
  | _ => false

/-- Does the entry carry a numeric date? -/
def entryDateIsNum (e : JVal × JVal) : Bool :=
  match e.1 with
  | .num _ => true
  | _ => false

/-- Are the sort keys of the group mutually comparable (all strings or
all numbers)?  Python `sorted` raises TypeError otherwise. -/
def sortableKeys (v : List (JVal × JVal)) : Bool :=
  v.all entryDateIsStr || v.all entryDateIsNum

/-- `sorted(v, key=lambda x: x["date"])`: a stable sort by date, raising
on incomparable keys. -/
def sortE (v : List (JVal × JVal)) : Except String (List (JVal × JVal)) :=
  if sortableKeys v then .ok (List.insertionSort entryLe v)
  else .error "TypeError: comparison"

/-- The final comprehension of the flat-list branch: sort every group,
preserving key order. -/
def sortGroups : ApiDict → Except String ApiDict
  | [] => .ok []
  | (k, v) :: rest =>
      match sortE v with
      | .error e => .error e
      | .ok v2 =>
          match sortGroups rest with
          | .error e => .error e
          | .ok r => .ok ((k, v2) :: r)

/-- The flat-list branch: group the kept rows, then sort each group by
date. -/
def normalizeList (rows : List JVal) : Except String ApiDict :=
  match buildRows [] rows with
  | .error e => .error e
  | .ok tmp => sortGroups tmp

/-- The response-shape dispatch inside the `try` block: an object goes
through the mapping branch, an array through the flat-list branch, and
any other shape is logged and yields the empty mapping (an ordinary
return, not an exception). -/
def normalizeResponse : JVal → Except String ApiDict
  | .obj kvs => normalizeDict kvs
  | .list rows => normalizeList rows
  | _ => .ok []

/-- The provider interaction summarized: `requests.get` timed out, the
transport failed, the body failed to parse as JSON, or a response with
a status code and parsed body arrived. -/
inductive HttpOutcome where
  | timeout
  | requestError
  | jsonError
  | response (status : Nat) (body : JVal)

/-- api_client.fetch_prices: a timeout, transport error or JSON parse
error is caught and yields the empty mapping; a non-200 status returns
the empty mapping; otherwise the body is normalized, with any raised
error caught by the blanket handler and converted to the empty
mapping. -/
def fetch_prices (symbols : List String) (from_date to_date : String)
    (outcome : HttpOutcome) : ApiDict :=
  match outcome with
  | .timeout => []
  | .requestError => []
  | .jsonError => []
  | .response status body =>
      if status ≠ 200 then []
      else
        match normalizeResponse body with
        | .ok result => result
        | .error _ => []

/-- Lookup of a symbol in the normalized mapping (dict access). -/
def lookupK : ApiDict → JKey → Option (List (JVal × JVal))
  | [], _ => none
  | (k2, v) :: rest, k => if k2 = k then some v else lookupK rest k

/-- The entry a flat-list row contributes to the group of key `k`:
its (date, close) pair when it is kept and its symbol hashes to `k`. -/
def rowEntry (k : JKey) (row : JVal) : Option (JVal × JVal) :=
  match rowFields row with
  | .error _ => none
  | .ok f =>
      if keepRow f.1 f.2.1 f.2.2 then
        match symKey f.1 with
        | .ok k2 => if k2 = k then some (f.2.1, f.2.2) else none
        | .error _ => none
      else none

/-- The full group of key `k`: the contributions of all rows in order. -/
def groupOf (rows : List JVal) (k : JKey) : List (JVal × JVal) :=
  rows.filterMap (rowEntry k)

/-- The provider outcomes the error-handling contract covers: timeout,
transport failure, unparseable body, non-success status, a body that is
neither a mapping nor an array, or any error raised inside the
normalization. -/
def isFailureOutcome : HttpOutcome → Prop
  | .timeout => True
  | .requestError => True
  | .jsonError => True
  | .response status body =>
      status ≠ 200
      ∨ ((∀ kvs, body ≠ JVal.obj kvs) ∧ (∀ rows, body ≠ JVal.list rows))
      ∨ ∃ e, normalizeResponse body = .error e

/-- C1: the claim states that for unit month the window ends on the last
calendar day of the month immediately preceding the as-of month, for
`n=1, as_of=2024-03` giving `(2023-12-29, 2024-02-29)`.  The code
instead computes `datetime(y, m, 1) + relativedelta(months=1) -
timedelta(days=1)`, the last day of the as-of month itself, so the
window is `(2024-01-31, 2024-03-31)` — contradicting the inline comment
"Last day of the previous month relative to as_of month". -/
theorem C1_month_window_code_bug :
    calculate_date_range (.month 2024 3) 1
      = (daysFromCivil 2024 1 31, daysFromCivil 2024 3 31)
    ∧ calculate_date_range (.month 2024 3) 1
      ≠ (daysFromCivil 2023 12 29, daysFromCivil 2024 2 29) := by
  constructor
  · decide
  · decide

/-- C5: round_to_saturday maps every date to a Saturday at most six days
later (so never an earlier Saturday), fixes dates that are already
Saturday, sends a Sunday six days forward — seven days past the Saturday
immediately preceding it — and sends Tuesday 2024-01-02 to 2024-01-06. -/
theorem C5_round_to_saturday :
    (∀ date : Int,
        pyWeekday (round_to_saturday date) = 5
        ∧ date ≤ round_to_saturday date
        ∧ round_to_saturday date ≤ date + 6)
    ∧ (∀ date : Int, pyWeekday date = 5 → round_to_saturday date = date)
    ∧ (∀ date : Int, pyWeekday date = 6 → round_to_saturday date = (date - 1) + 7)
    ∧ round_to_saturday (daysFromCivil 2024 1 2) = daysFromCivil 2024 1 6 := by
  refine ⟨fun date => ?_, fun date h => ?_, fun date h => ?_, by decide⟩
  · simp only [round_to_saturday, pyWeekday]
    split_ifs <;> omega
  · simp only [round_to_saturday, pyWeekday] at *
    split_ifs <;> omega
  · simp only [round_to_saturday, pyWeekday] at *
    split_ifs <;> omega

/-- Witness for C5 at concrete dates: 2024-01-06 was a Saturday and is a
fixed point; 2024-01-07 was a Sunday and rounds to 2024-01-13. -/
theorem C5_round_to_saturday_witness :
    round_to_saturday (daysFromCivil 2024 1 6) = daysFromCivil 2024 1 6
    ∧ round_to_saturday (daysFromCivil 2024 1 7) = (daysFromCivil 2024 1 7 - 1) + 7 := by
  constructor
  · exact C5_round_to_saturday.2.1 (daysFromCivil 2024 1 6) (by decide)
  · exact C5_round_to_saturday.2.2.1 (daysFromCivil 2024 1 7) (by decide)

/-- C4: whenever the series of a ticker resolves a close on both anchors
and the past close is non-zero, the computed value is exactly
`current_close / past_close - 1`; a past close of exactly 0 yields
`None` (so the division is never taken); and with closes 110 and 100 the
value is exactly 1/10. -/
theorem C4_momentum_arithmetic :
    (∀ (pd : PriceDict) (cur past : Int) (ticker : String)
        (prices : List PricePoint) (c p : Rat),
        lookupTicker pd ticker = some prices →
        find_price_on_date prices cur = some c →
        find_price_on_date prices past = some p →
        p ≠ 0 →
        tickerMomentum pd cur past ticker = some (c / p - 1))
    ∧ (∀ (pd : PriceDict) (cur past : Int) (ticker : String)
        (prices : List PricePoint) (c : Rat),
        lookupTicker pd ticker = some prices →
        find_price_on_date prices cur = some c →
        find_price_on_date prices past = some (0 : Rat) →
        tickerMomentum pd cur past ticker = none)
    ∧ tickerMomentum [("A", [⟨0, some 100⟩, ⟨1, some 110⟩])] 1 0 "A"
        = some (1 / 10 : Rat) := by
  have h1 : ∀ (pd : PriceDict) (cur past : Int) (ticker : String)
      (prices : List PricePoint) (c p : Rat),
      lookupTicker pd ticker = some prices →
      find_price_on_date prices cur = some c →
      find_price_on_date prices past = some p →
      p ≠ 0 →
      tickerMomentum pd cur past ticker = some (c / p - 1) := by
    intro pd cur past ticker prices c p hl hc hp hp0
    have hne : prices.isEmpty = false := by
      cases prices with
      | nil => simp [find_price_on_date] at hc
      | cons a l => rfl
    simp [tickerMomentum, hl, hne, hc, hp, hp0]
  refine ⟨h1, ?_, ?_⟩
  · intro pd cur past ticker prices c hl hc hp
    have hne : prices.isEmpty = false := by
      cases prices with
      | nil => simp [find_price_on_date] at hc
      | cons a l => rfl
    simp [tickerMomentum, hl, hne, hc, hp]
  · have h := h1 [("A", [⟨0, some 100⟩, ⟨1, some 110⟩])] 1 0 "A"
      [⟨0, some 100⟩, ⟨1, some 110⟩] 110 100 rfl rfl rfl (by norm_num)
    rw [h]
    norm_num

/-- Witness for C4: the general formula applied to a concrete dataset
with current close 110 and past close 100. -/
theorem C4_momentum_arithmetic_witness :
    tickerMomentum [("A", [⟨0, some 100⟩, ⟨1, some 110⟩])] 1 0 "A"
      = some ((110 : Rat) / 100 - 1) :=
  C4_momentum_arithmetic.1 [("A", [⟨0, some 100⟩, ⟨1, some 110⟩])] 1 0 "A"
    [⟨0, some 100⟩, ⟨1, some 110⟩] 110 100 rfl rfl rfl (by norm_num)

/-- Helper: `getD` through a `map`, at an index inside the list. -/
theorem getD_map_of_lt {α β : Type} [Inhabited α] (f : α → Option β) (l : List α)
    (i : Nat) (h : i < l.length) :
    (l.map f).getD i none = f (l.getD i default) := by
  rw [List.getD_eq_getElem?_getD, List.getD_eq_getElem?_getD, List.getElem?_map,
    List.getElem?_eq_getElem h]
  simp

/-- C2: for every fetch outcome and every request, the value list of
calculate has exactly the length of the ticker list and is positionally
aligned with it: at each index the value is the per-ticker computation
for the ticker at that index when both anchors exist, and `None` (one
absent marker per ticker, none omitted) when either anchor is missing. -/
theorem C2_result_alignment :
    ∀ (fetch : List String → Int → Int → PriceDict) (tickers : List String)
      (u : UnitPeriod) (n : Nat),
      (calculate fetch tickers u n).1.length = tickers.length
      ∧ ∀ i, i < tickers.length →
          (calculate fetch tickers u n).1.getD i none =
            match
              find_common_anchors
                (fetch tickers (calculate_date_range u n).1 (calculate_date_range u n).2)
                u n with
            | (some c, some p) =>
                tickerMomentum
                  (fetch tickers (calculate_date_range u n).1 (calculate_date_range u n).2)
                  c p (tickers.getD i "")
            | _ => none := by
  intro fetch tickers u n
  rcases hfa : find_common_anchors
      (fetch tickers (calculate_date_range u n).1 (calculate_date_range u n).2) u n
    with ⟨o1, o2⟩
  cases o1 with
  | none =>
      cases o2 <;>
        refine ⟨by simp [calculate, hfa], fun i hi => ?_⟩ <;>
          simp [calculate, hfa, List.getD_eq_getElem?_getD, List.getElem?_replicate, hi]
  | some c =>
      cases o2 with
      | none =>
          refine ⟨by simp [calculate, hfa], fun i hi => ?_⟩
          simp [calculate, hfa, List.getD_eq_getElem?_getD, List.getElem?_replicate, hi]
      | some p =>
          refine ⟨by simp [calculate, hfa], fun i hi => ?_⟩
          have := getD_map_of_lt
            (tickerMomentum
              (fetch tickers (calculate_date_range u n).1 (calculate_date_range u n).2) c p)
            tickers i hi
          simp [calculate, hfa]
          simpa using this

/-- Witness for C2 at a concrete request: an empty fetch result gives a
one-element all-absent value list. -/
theorem C2_result_alignment_witness :
    (calculate (fun _ _ _ => ([] : PriceDict)) ["AAPL"] (.day 0) 1).1.getD 0 none
      = none :=
  (C2_result_alignment (fun _ _ _ => ([] : PriceDict)) ["AAPL"] (.day 0) 1).2 0
    (by decide)

/-- Helper: a successful current anchor determines the shape of the full
result of find_common_anchors. -/
theorem find_common_anchors_of_fst_some {pd : PriceDict} {u : UnitPeriod} {n : Nat}
    {c : Int} (h : (find_common_anchors pd u n).1 = some c) :
    currentAnchorScan (common_dates_of pd) u = some c
    ∧ find_common_anchors pd u n = (some c, pastAnchorScan (common_dates_of pd) u n c) := by
  have hshape : find_common_anchors pd u n = (none, none)
      ∨ ∃ c2, currentAnchorScan (common_dates_of pd) u = some c2
          ∧ find_common_anchors pd u n
              = (some c2, pastAnchorScan (common_dates_of pd) u n c2) := by
    unfold find_common_anchors
    by_cases h1 : pd.isEmpty
    · left; simp [h1]
    · by_cases h2 : (ticker_date_sets pd).isEmpty
      · left; simp [h1, h2]
      · by_cases h3 : (common_dates_of pd).isEmpty
        · left; simp [h1, h2, h3]
        · rcases hscan : currentAnchorScan (common_dates_of pd) u with _ | c2
          · left; simp [h1, h2, h3, hscan]
          · right; exact ⟨c2, rfl, by simp [h1, h2, h3, hscan]⟩
  rcases hshape with hnn | ⟨c2, hscan, heq⟩
  · rw [hnn] at h; simp at h
  · rw [heq] at h
    have hc : c2 = c := by simpa using h
    subst hc
    exact ⟨hscan, heq⟩

/-- Helper: the current anchor is one of the common dates. -/
theorem currentAnchorScan_mem {common : List Int} {u : UnitPeriod} {c : Int}
    (h : currentAnchorScan common u = some c) : c ∈ common := by
  cases u <;>
    simpa using List.mem_reverse.mp (List.mem_of_find?_eq_some h)

/-- Helper: the common-date list is sorted ascending. -/
theorem common_dates_of_sorted (pd : PriceDict) :
    (common_dates_of pd).Sorted (· ≤ ·) := by
  unfold common_dates_of
  cases h : ticker_date_sets pd with
  | nil => exact List.sorted_nil
  | cons s rest => exact List.sorted_insertionSort _ _

/-- Helper: the common-date list has no duplicates (it comes from a set
intersection). -/
theorem common_dates_of_nodup (pd : PriceDict) :
    (common_dates_of pd).Nodup := by
  unfold common_dates_of
  cases h : ticker_date_sets pd with
  | nil => exact List.nodup_nil
  | cons s rest =>
      have hs : s ∈ ticker_date_sets pd := by rw [h]; exact List.mem_cons_self s rest
      simp only [ticker_date_sets] at hs
      rcases List.mem_map.mp hs with ⟨ps, hmem, hps⟩
      have hps2 : (ps.map PricePoint.date).dedup = s := hps
      have hnd : s.Nodup := hps2 ▸ List.nodup_dedup (ps.map PricePoint.date)
      exact ((List.perm_insertionSort _ _).nodup_iff).mpr (hnd.filter _)

/-- Helper: the common-date list is strictly increasing. -/
theorem common_dates_of_pairwise_lt (pd : PriceDict) :
    (common_dates_of pd).Pairwise (· < ·) :=
  ((common_dates_of_sorted pd).and (common_dates_of_nodup pd)).imp
    (fun hab => lt_of_le_of_ne hab.1 hab.2)

/-- Helper: in a strictly increasing list, the prefix before the index
of an element consists exactly of the members smaller than it. -/
theorem mem_take_indexOf {l : List Int} (hlt : l.Pairwise (· < ·)) {c : Int}
    (hc : c ∈ l) (d : Int) :
    d ∈ l.take (l.indexOf c) ↔ d ∈ l ∧ d < c := by
  have hidx : l.indexOf c < l.length := List.indexOf_lt_length.mpr hc
  have hgetc : l.get ⟨l.indexOf c, hidx⟩ = c := List.indexOf_get hidx
  constructor
  · intro hdm
    rcases List.mem_iff_get.mp hdm with ⟨i, hget⟩
    have hi2 : (i : Nat) < l.indexOf c := by
      have h1 := i.isLt
      have h2 : (l.take (l.indexOf c)).length = min (l.indexOf c) l.length :=
        List.length_take _ _
      omega
    have hil : (i : Nat) < l.length := by omega
    have hval : (l.take (l.indexOf c)).get i = l.get ⟨i, hil⟩ := by
      simp [List.get_eq_getElem]
    constructor
    · exact (List.take_sublist _ l).subset hdm
    · have hrel := List.pairwise_iff_get.mp hlt ⟨i, hil⟩ ⟨l.indexOf c, hidx⟩ hi2
      rw [hgetc] at hrel
      rw [← hget, hval]
      exact hrel
  · rintro ⟨hdl, hdc⟩
    rcases List.mem_iff_get.mp hdl with ⟨j, hget⟩
    have hj2 : (j : Nat) < l.indexOf c := by
      rcases lt_trichotomy (j : Nat) (l.indexOf c) with h | h | h
      · exact h
      · exfalso
        have hjc : l.get j = c := by
          have hje : j = ⟨l.indexOf c, hidx⟩ := Fin.ext h
          rw [hje, hgetc]
        rw [hget] at hjc
        omega
      · exfalso
        have hrel := List.pairwise_iff_get.mp hlt ⟨l.indexOf c, hidx⟩ j h
        rw [hgetc, hget] at hrel
        omega
    have hlen : (j : Nat) < (l.take (l.indexOf c)).length := by
      rw [List.length_take]; omega
    have hval : (l.take (l.indexOf c)).get ⟨j, hlen⟩ = l.get j := by
      simp [List.get_eq_getElem]
    exact List.mem_iff_get.mpr ⟨⟨j, hlen⟩, by rw [hval, hget]⟩

/-- C6: for unit day, when a current anchor at index `i` of the sorted
common-date list exists, the past anchor is the common date at index
`i - n` when `n ≤ i` (it always exists), and no past anchor results when
fewer than `n` common dates precede the current anchor; and whenever the
past anchor is missing, calculate yields one absent value per ticker and
an `N/A` anchor pair. -/
theorem C6_day_past_anchor :
    (∀ (pd : PriceDict) (n : Nat) (base c : Int),
      (find_common_anchors pd (.day base) n).1 = some c →
      ((n ≤ (common_dates_of pd).indexOf c →
          (find_common_anchors pd (.day base) n).2
            = (common_dates_of pd).get? ((common_dates_of pd).indexOf c - n)
          ∧ ∃ d, (common_dates_of pd).get? ((common_dates_of pd).indexOf c - n) = some d)
        ∧ ((common_dates_of pd).indexOf c < n →
          (find_common_anchors pd (.day base) n).2 = none)))
    ∧ (∀ (fetch : List String → Int → Int → PriceDict) (tickers : List String)
        (u : UnitPeriod) (n : Nat),
        (find_common_anchors
            (fetch tickers (calculate_date_range u n).1 (calculate_date_range u n).2)
            u n).2 = none →
        calculate fetch tickers u n = (List.replicate tickers.length none, none)) := by
  constructor
  · intro pd n base c h
    obtain ⟨hscan, heq⟩ := find_common_anchors_of_fst_some h
    have hmem : c ∈ common_dates_of pd := currentAnchorScan_mem hscan
    have hidx : (common_dates_of pd).indexOf c < (common_dates_of pd).length :=
      List.indexOf_lt_length.mpr hmem
    constructor
    · intro hn
      rw [heq]
      simp only [pastAnchorScan]
      rw [if_pos hn]
      refine ⟨rfl, ?_⟩
      have hlt : (common_dates_of pd).indexOf c - n < (common_dates_of pd).length := by
        omega
      exact ⟨_, List.get?_eq_get hlt⟩
    · intro hn
      rw [heq]
      simp only [pastAnchorScan]
      rw [if_neg (by omega)]
  · intro fetch tickers u n h
    rcases hfa : find_common_anchors
        (fetch tickers (calculate_date_range u n).1 (calculate_date_range u n).2) u n
      with ⟨o1, o2⟩
    rw [hfa] at h
    simp only at h
    subst h
    cases o1 <;> simp [calculate, hfa]

/-- Witness for C6: ten common dates 0..9, n = 3, as-of day 7; the
current anchor is the date at index 7 and the past anchor is the common
date at index 4. -/
theorem C6_day_past_anchor_witness :
    (find_common_anchors
        [("A", [⟨0, some 1⟩, ⟨1, some 1⟩, ⟨2, some 1⟩, ⟨3, some 1⟩, ⟨4, some 1⟩,
                ⟨5, some 1⟩, ⟨6, some 1⟩, ⟨7, some 1⟩, ⟨8, some 1⟩, ⟨9, some 1⟩])]
        (.day 7) 3).2
      = (common_dates_of
          [("A", [⟨0, some 1⟩, ⟨1, some 1⟩, ⟨2, some 1⟩, ⟨3, some 1⟩, ⟨4, some 1⟩,
                  ⟨5, some 1⟩, ⟨6, some 1⟩, ⟨7, some 1⟩, ⟨8, some 1⟩, ⟨9, some 1⟩])]).get? 4 :=
  ((C6_day_past_anchor.1
      [("A", [⟨0, some 1⟩, ⟨1, some 1⟩, ⟨2, some 1⟩, ⟨3, some 1⟩, ⟨4, some 1⟩,
              ⟨5, some 1⟩, ⟨6, some 1⟩, ⟨7, some 1⟩, ⟨8, some 1⟩, ⟨9, some 1⟩])]
      3 7 7 (by decide)).1 (by decide)).1

/-- Helper: the week-unit selection loop, once it holds a candidate,
always holds one. -/
theorem weekFold_from_some_isSome (tf : Int) :
    ∀ (l : List Int) (b : Int) (m : Nat),
      ∃ p m2, l.foldl (weekPastStep tf) (some (b, m)) = some (p, m2) := by
  intro l
  induction l with
  | nil => intro b m; exact ⟨b, m, rfl⟩
  | cons d rest ih =>
      intro b m
      rw [List.foldl_cons]
      have hstep : weekPastStep tf (some (b, m)) d
          = if (d - tf).natAbs < m ∧ (d - tf).natAbs ≤ 7
            then some (d, (d - tf).natAbs) else some (b, m) := rfl
      by_cases hsel : (d - tf).natAbs < m ∧ (d - tf).natAbs ≤ 7
      · rw [hstep, if_pos hsel]; exact ih d _
      · rw [hstep, if_neg hsel]; exact ih b m

/-- Helper: characterization of the week-unit selection loop started
from a held candidate `b` at distance `m ≤ 7`: over a sorted candidate
list whose elements all lie at or after `b`, the final state is the held
candidate of minimal distance, with ties kept at the earlier date. -/
theorem weekFold_some_char (tf : Int) :
    ∀ (l : List Int), l.Sorted (· ≤ ·) →
      ∀ (b : Int) (m : Nat), m = (b - tf).natAbs → m ≤ 7 → (∀ x ∈ l, b ≤ x) →
      ∀ p m2, l.foldl (weekPastStep tf) (some (b, m)) = some (p, m2) →
        m2 = (p - tf).natAbs ∧ m2 ≤ 7 ∧ m2 ≤ m ∧ (p = b ∨ p ∈ l)
        ∧ (∀ q ∈ l, m2 ≤ (q - tf).natAbs)
        ∧ (∀ q ∈ l, (q - tf).natAbs = m2 → p ≤ q)
        ∧ (m2 = m → p = b) := by
  intro l
  induction l with
  | nil =>
      intro _ b m hm hm7 _ p m2 hf
      rw [List.foldl_nil] at hf
      obtain ⟨hb, hm2⟩ : b = p ∧ m = m2 := by simpa using hf
      subst hb; subst hm2
      exact ⟨hm, hm7, le_refl m, Or.inl rfl, by simp, by simp, fun _ => rfl⟩
  | cons d rest ih =>
      intro hsort b m hm hm7 hble p m2 hf
      rw [List.foldl_cons] at hf
      have hstep : weekPastStep tf (some (b, m)) d
          = if (d - tf).natAbs < m ∧ (d - tf).natAbs ≤ 7
            then some (d, (d - tf).natAbs) else some (b, m) := rfl
      by_cases hsel : (d - tf).natAbs < m ∧ (d - tf).natAbs ≤ 7
      · rw [hstep, if_pos hsel] at hf
        obtain ⟨e1, e2, e3, e4, e5, e6, e7⟩ :=
          ih hsort.of_cons d ((d - tf).natAbs) rfl hsel.2
            (List.rel_of_sorted_cons hsort) p m2 hf
        refine ⟨e1, e2, by omega, ?_, ?_, ?_, ?_⟩
        · rcases e4 with hpd | hpr
          · exact Or.inr (hpd ▸ List.mem_cons_self d rest)
          · exact Or.inr (List.mem_cons_of_mem d hpr)
        · intro q hq
          rcases List.mem_cons.mp hq with rfl | hq2
          · exact e3
          · exact e5 q hq2
        · intro q hq hdq
          rcases List.mem_cons.mp hq with rfl | hq2
          · exact le_of_eq (e7 hdq.symm)
          · exact e6 q hq2 hdq
        · intro hm2m
          exfalso
          omega
      · rw [hstep, if_neg hsel] at hf
        obtain ⟨e1, e2, e3, e4, e5, e6, e7⟩ :=
          ih hsort.of_cons b m hm hm7
            (fun x hx => hble x (List.mem_cons_of_mem d hx)) p m2 hf
        refine ⟨e1, e2, e3, ?_, ?_, ?_, e7⟩
        · rcases e4 with hpb | hpr
          · exact Or.inl hpb
          · exact Or.inr (List.mem_cons_of_mem d hpr)
        · intro q hq
          rcases List.mem_cons.mp hq with rfl | hq2
          · rcases Nat.lt_or_ge (q - tf).natAbs m with hh | hh
            · have h7 : ¬((q - tf).natAbs ≤ 7) := fun hle => hsel ⟨hh, hle⟩
              omega
            · omega
          · exact e5 q hq2
        · intro q hq hdq
          rcases List.mem_cons.mp hq with rfl | hq2
          · rcases Nat.lt_or_ge (q - tf).natAbs m with hh | hh
            · have h7 : ¬((q - tf).natAbs ≤ 7) := fun hle => hsel ⟨hh, hle⟩
              omega
            · have hm2m : m2 = m := by omega
              exact (e7 hm2m) ▸ hble q (List.mem_cons_self q rest)
          · exact e6 q hq2 hdq

/-- Helper: characterization of the week-unit selection loop from the
initial empty state over a sorted candidate list: no candidate within 7
days of the target yields no selection, and otherwise the selection is a
closest candidate, ties broken toward the earliest. -/
theorem weekFold_none_char (tf : Int) :
    ∀ (l : List Int), l.Sorted (· ≤ ·) →
      (l.foldl (weekPastStep tf) none = none ↔ ∀ d ∈ l, 7 < (d - tf).natAbs)
      ∧ (∀ p m2, l.foldl (weekPastStep tf) none = some (p, m2) →
          m2 = (p - tf).natAbs ∧ m2 ≤ 7 ∧ p ∈ l
          ∧ (∀ q ∈ l, m2 ≤ (q - tf).natAbs)
          ∧ (∀ q ∈ l, (q - tf).natAbs = m2 → p ≤ q)) := by
  intro l
  induction l with
  | nil =>
      intro _
      refine ⟨by simp, ?_⟩
      intro p m2 hf
      simp [List.foldl_nil] at hf
  | cons d rest ih =>
      intro hsort
      have hstep : weekPastStep tf none d
          = if (d - tf).natAbs ≤ 7 then some (d, (d - tf).natAbs) else none := rfl
      by_cases hd : (d - tf).natAbs ≤ 7
      · constructor
        · rw [List.foldl_cons, hstep, if_pos hd]
          constructor
          · intro hnone
            exfalso
            obtain ⟨p, m2, hsome⟩ := weekFold_from_some_isSome tf rest d ((d - tf).natAbs)
            rw [hsome] at hnone
            exact Option.noConfusion hnone
          · intro hall
            exact absurd (hall d (List.mem_cons_self d rest)) (by omega)
        · intro p m2 hf
          rw [List.foldl_cons, hstep, if_pos hd] at hf
          obtain ⟨e1, e2, e3, e4, e5, e6, e7⟩ :=
            weekFold_some_char tf rest hsort.of_cons d ((d - tf).natAbs) rfl hd
              (List.rel_of_sorted_cons hsort) p m2 hf
          refine ⟨e1, e2, ?_, ?_, ?_⟩
          · rcases e4 with hpd | hpr
            · exact hpd ▸ List.mem_cons_self d rest
            · exact List.mem_cons_of_mem d hpr
          · intro q hq
            rcases List.mem_cons.mp hq with rfl | hq2
            · exact e3
            · exact e5 q hq2
          · intro q hq hdq
            rcases List.mem_cons.mp hq with rfl | hq2
            · exact le_of_eq (e7 hdq.symm)
            · exact e6 q hq2 hdq
      · obtain ⟨ih1, ih2⟩ := ih hsort.of_cons
        rw [List.foldl_cons, hstep, if_neg hd]
        constructor
        · rw [ih1]
          constructor
          · intro hall q hq
            rcases List.mem_cons.mp hq with rfl | hq2
            · omega
            · exact hall q hq2
          · intro hall q hq
            exact hall q (List.mem_cons_of_mem d hq)
        · intro p m2 hf
          obtain ⟨e1, e2, e3, e4, e5⟩ := ih2 p m2 hf
          refine ⟨e1, e2, List.mem_cons_of_mem d e3, ?_, ?_⟩
          · intro q hq
            rcases List.mem_cons.mp hq with rfl | hq2
            · omega
            · exact e4 q hq2
          · intro q hq hdq
            rcases List.mem_cons.mp hq with rfl | hq2
            · omega
            · exact e5 q hq2 hdq

/-- C7: for unit week, when a current anchor `c` exists, the candidates
are exactly the common dates strictly earlier than `c`; no past anchor
results precisely when no candidate lies within 7 days of the target
`c - 7n - 1` (the Friday preceding the Saturday `n` weeks before `c`);
and a returned past anchor is a candidate within 7 days of the target
whose day distance to the target is minimal, ties broken toward the
earliest (smallest) candidate. -/
theorem C7_week_past_anchor :
    ∀ (pd : PriceDict) (n : Nat) (base c : Int),
      (find_common_anchors pd (.week base) n).1 = some c →
      (∀ d, d ∈ (common_dates_of pd).take ((common_dates_of pd).indexOf c)
          ↔ d ∈ common_dates_of pd ∧ d < c)
      ∧ ((find_common_anchors pd (.week base) n).2 = none
          ↔ ∀ d ∈ (common_dates_of pd).take ((common_dates_of pd).indexOf c),
              7 < (d - (c - 7 * (n : Int) - 1)).natAbs)
      ∧ (∀ p, (find_common_anchors pd (.week base) n).2 = some p →
          p ∈ (common_dates_of pd).take ((common_dates_of pd).indexOf c)
          ∧ (p - (c - 7 * (n : Int) - 1)).natAbs ≤ 7
          ∧ ∀ q ∈ (common_dates_of pd).take ((common_dates_of pd).indexOf c),
              (p - (c - 7 * (n : Int) - 1)).natAbs ≤ (q - (c - 7 * (n : Int) - 1)).natAbs
              ∧ ((q - (c - 7 * (n : Int) - 1)).natAbs
                    = (p - (c - 7 * (n : Int) - 1)).natAbs → p ≤ q)) := by
  intro pd n base c h
  obtain ⟨hscan, heq⟩ := find_common_anchors_of_fst_some h
  have hmem : c ∈ common_dates_of pd := currentAnchorScan_mem hscan
  have htake := mem_take_indexOf (common_dates_of_pairwise_lt pd) hmem
  have hsorted :
      ((common_dates_of pd).take ((common_dates_of pd).indexOf c)).Sorted (· ≤ ·) :=
    List.Pairwise.sublist (List.take_sublist _ _) (common_dates_of_sorted pd)
  have hpast : (find_common_anchors pd (.week base) n).2
      = (((common_dates_of pd).take ((common_dates_of pd).indexOf c)).foldl
          (weekPastStep (c - 7 * (n : Int) - 1)) none).map Prod.fst := by
    rw [heq]
    rfl
  obtain ⟨hiff, hsome⟩ :=
    weekFold_none_char (c - 7 * (n : Int) - 1) _ hsorted
  refine ⟨htake, ?_, ?_⟩
  · rw [hpast]
    rcases hfold : ((common_dates_of pd).take ((common_dates_of pd).indexOf c)).foldl
        (weekPastStep (c - 7 * (n : Int) - 1)) none with _ | pm
    · exact iff_of_true rfl (hiff.mp hfold)
    · obtain ⟨p2, m2⟩ := pm
      obtain ⟨e1, e2, e3, e4, e5⟩ := hsome p2 m2 hfold
      refine iff_of_false (by simp) ?_
      intro hall
      exact absurd (hall p2 e3) (by omega)
  · intro p hp
    rw [hpast] at hp
    rcases hfold : ((common_dates_of pd).take ((common_dates_of pd).indexOf c)).foldl
        (weekPastStep (c - 7 * (n : Int) - 1)) none with _ | pm
    · rw [hfold] at hp
      simp at hp
    · obtain ⟨p2, m2⟩ := pm
      rw [hfold] at hp
      have hpp : p2 = p := by simpa using hp
      subst hpp
      obtain ⟨e1, e2, e3, e4, e5⟩ := hsome p2 m2 hfold
      refine ⟨e3, by omega, ?_⟩
      intro q hq
      refine ⟨by rw [← e1]; exact e4 q hq, ?_⟩
      intro hdq
      exact e5 q hq (by omega)

/-- Witness for C7: common dates 0, 3, 10 with as-of 2024-style day 10
(a Sunday in the modelled week numbering), n = 1, current anchor 10:
the returned past anchor 3 is a candidate within 7 days of the target. -/
theorem C7_week_past_anchor_witness :
    (3 : Int) ∈ (common_dates_of
        [("A", [⟨0, some 1⟩, ⟨3, some 1⟩, ⟨10, some 1⟩])]).take
        ((common_dates_of [("A", [⟨0, some 1⟩, ⟨3, some 1⟩, ⟨10, some 1⟩])]).indexOf 10)
    ∧ ((3 : Int) - ((10 : Int) - 7 * ((1 : Nat) : Int) - 1)).natAbs ≤ 7 := by
  have h := (C7_week_past_anchor
      [("A", [⟨0, some 1⟩, ⟨3, some 1⟩, ⟨10, some 1⟩])] 1 10 10 (by decide)).2.2
      3 (by decide)
  exact ⟨h.1, h.2.1⟩

/-- C3: fetch_prices is a total function of the provider outcome (it
never raises to its caller), and on every failure outcome — timeout,
transport failure, unparseable body, non-success status, a body of
invalid shape, or an error raised during normalization — it returns the
empty mapping. -/
theorem C3_fetch_prices_fails_soft :
    ∀ (symbols : List String) (from_date to_date : String) (o : HttpOutcome),
      isFailureOutcome o → fetch_prices symbols from_date to_date o = [] := by
  intro symbols fd td o ho
  cases o with
  | timeout => rfl
  | requestError => rfl
  | jsonError => rfl
  | response status body =>
      rcases ho with hst | ⟨hobj, hlist⟩ | ⟨e, he⟩
      · simp [fetch_prices, hst]
      · by_cases h200 : status ≠ 200
        · simp [fetch_prices, h200]
        · cases body with
          | null => simp [fetch_prices, h200, normalizeResponse]
          | num q => simp [fetch_prices, h200, normalizeResponse]
          | str s => simp [fetch_prices, h200, normalizeResponse]
          | list xs => exact absurd rfl (hlist xs)
          | obj kvs => exact absurd rfl (hobj kvs)
      · by_cases h200 : status ≠ 200
        · simp [fetch_prices, h200]
        · simp [fetch_prices, h200, he]

/-- Witness for C3: a timeout yields the empty mapping. -/
theorem C3_fetch_prices_fails_soft_witness :
    fetch_prices ["AAPL"] "2024-01-01" "2024-01-31" HttpOutcome.timeout = [] :=
  C3_fetch_prices_fails_soft ["AAPL"] "2024-01-01" "2024-01-31" HttpOutcome.timeout
    trivial

/-- Helper: a raising element makes the whole comprehension raise. -/
theorem convertPrices_error {ps : List JVal} {p : JVal} (hp : p ∈ ps)
    {e0 : String} (he : convertPricePoint p = .error e0) :
    ∃ e, convertPrices ps = Except.error e := by
  induction ps with
  | nil => cases hp
  | cons a rest ih =>
      rcases List.mem_cons.mp hp with rfl | hmem
      · exact ⟨e0, by simp [convertPrices, he]⟩
      · cases hconv : convertPricePoint a with
        | error e1 => exact ⟨e1, by simp [convertPrices, hconv]⟩
        | ok v =>
            obtain ⟨e, hrec⟩ := ih hmem
            exact ⟨e, by simp [convertPrices, hconv, hrec]⟩

/-- Helper: a raising entry makes the whole mapping branch raise. -/
theorem normalizeDict_error :
    ∀ {kvs : List (String × JVal)} {t : String} {v : JVal},
      (t, v) ∈ kvs → ∀ {e0 : String}, convertSeries v = .error e0 →
      ∃ e, normalizeDict kvs = Except.error e := by
  intro kvs
  induction kvs with
  | nil => intro t v hmem; cases hmem
  | cons a rest ih =>
      intro t v hmem e0 he
      obtain ⟨t2, v2⟩ := a
      rcases List.mem_cons.mp hmem with heq | hmem2
      · obtain ⟨rfl, rfl⟩ : t2 = t ∧ v2 = v := by
          constructor <;> injection heq <;> simp_all
        exact ⟨e0, by simp [normalizeDict, he]⟩
      · cases hcs : convertSeries v2 with
        | error e1 => exact ⟨e1, by simp [normalizeDict, hcs]⟩
        | ok entry =>
            obtain ⟨e, hrec⟩ := ih hmem2 he
            exact ⟨e, by simp [normalizeDict, hcs, hrec]⟩

/-- C10: in the mapping-shaped response, one price object missing its
date or close key is not dropped individually: its conversion raises,
the blanket handler catches, and fetch_prices returns the empty
mapping, discarding the data of every symbol of the request. -/
theorem C10_missing_key_discards_all :
    ∀ (symbols : List String) (from_date to_date : String)
      (kvs : List (String × JVal)) (t : String) (ps : List JVal)
      (pkvs : List (String × JVal)),
      (t, JVal.list ps) ∈ kvs → JVal.obj pkvs ∈ ps →
      (jLookup pkvs "date" = none ∨ jLookup pkvs "close" = none) →
      fetch_prices symbols from_date to_date (.response 200 (.obj kvs)) = [] := by
  intro symbols fd td kvs t ps pkvs hmem hp hmiss
  have hconv : ∃ e0, convertPricePoint (JVal.obj pkvs) = Except.error e0 := by
    have hred : convertPricePoint (JVal.obj pkvs)
        = match jLookup pkvs "date", jLookup pkvs "close" with
          | some d, some c => Except.ok (d, c)
          | none, _ => Except.error "KeyError: date"
          | some _, none => Except.error "KeyError: close" := rfl
    rw [hred]
    rcases hmiss with hd | hc
    · rw [hd]
      exact ⟨_, rfl⟩
    · cases hdate : jLookup pkvs "date" with
      | none => exact ⟨_, rfl⟩
      | some d => rw [hc]; exact ⟨_, rfl⟩
  obtain ⟨e0, he0⟩ := hconv
  have hseries : ∃ e1, convertSeries (JVal.list ps) = Except.error e1 := by
    have htr : truthy (JVal.list ps) = true := by
      cases ps with
      | nil => cases hp
      | cons a rest => simp [truthy]
    obtain ⟨e, hcp⟩ := convertPrices_error hp he0
    exact ⟨e, by simp [convertSeries, htr, hcp]⟩
  obtain ⟨e1, he1⟩ := hseries
  obtain ⟨e, he⟩ := normalizeDict_error hmem he1
  simp [fetch_prices, normalizeResponse, he]

/-- Witness for C10: the AAPL object lacks a date, so the whole
response — including the complete MSFT data — normalizes to the empty
mapping. -/
theorem C10_missing_key_discards_all_witness :
    fetch_prices ["AAPL", "MSFT"] "2024-01-01" "2024-01-31"
        (.response 200 (.obj
          [("AAPL", .list [.obj [("close", .num 1)]]),
           ("MSFT", .list [.obj [("date", .str "2024-01-02"),
                                 ("close", .num 100)]])]))
      = [] :=
  C10_missing_key_discards_all ["AAPL", "MSFT"] "2024-01-01" "2024-01-31"
    [("AAPL", .list [.obj [("close", .num 1)]]),
     ("MSFT", .list [.obj [("date", .str "2024-01-02"), ("close", .num 100)]])]
    "AAPL" [.obj [("close", .num 1)]] [("close", .num 1)]
    (List.mem_cons_self _ _) (List.mem_cons_self _ _) (Or.inl rfl)

/-- C9 (amended): field extraction in the flat-list branch uses
truthiness, not key presence: a falsy canonical field (close 0, empty
symbol or date) falls through to the fallback key exactly as if the
canonical key were missing; the row is dropped when the extracted
symbol or date is falsy or the extracted close is None — in particular
a zero close with no Close fallback is dropped; and a zero close can
appear in the extracted fields only when the Close key itself holds 0
(so the original claim that it can never appear fails exactly there,
see the counterexample). -/
theorem C9_truthiness_extraction :
    ∀ (kvs : List (String × JVal)),
      (truthy (rowGetD kvs "close") = false → closeOf kvs = rowGetD kvs "Close")
      ∧ (truthy (rowGetD kvs "symbol") = false →
          symOf kvs = pyOr (rowGetD kvs "ticker") (rowGetD kvs "Symbol"))
      ∧ (truthy (rowGetD kvs "date") = false → dateOf kvs = rowGetD kvs "Date")
      ∧ (closeOf kvs = JVal.null →
          keepRow (symOf kvs) (dateOf kvs) (closeOf kvs) = false)
      ∧ (truthy (symOf kvs) = false →
          keepRow (symOf kvs) (dateOf kvs) (closeOf kvs) = false)
      ∧ (truthy (dateOf kvs) = false →
          keepRow (symOf kvs) (dateOf kvs) (closeOf kvs) = false)
      ∧ (closeOf kvs = JVal.num 0 → rowGetD kvs "Close" = JVal.num 0) := by
  intro kvs
  refine ⟨?_, ?_, ?_, ?_, ?_, ?_, ?_⟩
  · intro h; simp [closeOf, pyOr, h]
  · intro h; simp [symOf, pyOr, h]
  · intro h; simp [dateOf, pyOr, h]
  · intro h; rw [h]; simp [keepRow, isNull]
  · intro h; simp [keepRow, h]
  · intro h; simp [keepRow, h]
  · intro h
    unfold closeOf pyOr at h
    by_cases ht : truthy (rowGetD kvs "close") = true
    · rw [if_pos ht] at h
      rw [h] at ht
      simp [truthy] at ht
    · rw [if_neg ht] at h
      exact h

/-- Witness for C9 (amended): a row with symbol, date and a zero close
but no Close key has its close extraction fall through to None, and is
dropped. -/
theorem C9_truthiness_extraction_witness :
    closeOf [("symbol", .str "AAPL"), ("date", .str "2024-01-02"),
             ("close", .num 0)]
      = rowGetD [("symbol", .str "AAPL"), ("date", .str "2024-01-02"),
                 ("close", .num 0)] "Close"
    ∧ keepRow
        (symOf [("symbol", .str "AAPL"), ("date", .str "2024-01-02"),
                ("close", .num 0)])
        (dateOf [("symbol", .str "AAPL"), ("date", .str "2024-01-02"),
                 ("close", .num 0)])
        (closeOf [("symbol", .str "AAPL"), ("date", .str "2024-01-02"),
                  ("close", .num 0)])
      = false :=
  ⟨(C9_truthiness_extraction [("symbol", .str "AAPL"),
      ("date", .str "2024-01-02"), ("close", .num 0)]).1 rfl,
   (C9_truthiness_extraction [("symbol", .str "AAPL"),
      ("date", .str "2024-01-02"), ("close", .num 0)]).2.2.2.1 rfl⟩

/-- Counterexample for C9 as stated: a row whose close field is present
and equal to 0 is NOT always dropped — with a Close key also holding 0
the row is kept and a zero closing price appears in the normalized
series. -/
theorem C9_zero_close_counterexample :
    fetch_prices ["AAPL"] "2024-01-01" "2024-01-31"
        (.response 200 (.list [JVal.obj
          [("symbol", .str "AAPL"), ("date", .str "2024-01-02"),
           ("close", .num 0), ("Close", .num 0)]]))
      = [(JKey.s "AAPL", [(.str "2024-01-02", .num 0)])] := rfl

/-- Helper: the sort-key comparison is total. -/
theorem jKeyLeB_total (a b : JVal) : jKeyLeB a b = true ∨ jKeyLeB b a = true := by
  cases a <;> cases b <;> simp [jKeyLeB, clsOf] <;> exact le_total _ _

/-- Helper: the sort-key comparison is transitive. -/
theorem jKeyLeB_trans {a b c : JVal} (h1 : jKeyLeB a b = true)
    (h2 : jKeyLeB b c = true) : jKeyLeB a c = true := by
  cases a <;> cases b <;> cases c <;>
    simp_all [jKeyLeB, clsOf] <;>
    exact le_trans h1 h2

instance : IsTotal (JVal × JVal) entryLe :=
  ⟨fun x y => jKeyLeB_total x.1 y.1⟩

instance : IsTrans (JVal × JVal) entryLe :=
  ⟨fun _ _ _ h1 h2 => jKeyLeB_trans h1 h2⟩

/-- Helper: how a defaultdict append changes lookups. -/
theorem lookupK_addRow (acc : ApiDict) (k : JKey) (e : JVal × JVal) (k2 : JKey) :
    lookupK (addRow acc k e) k2
      = if k2 = k then some ((lookupK acc k).getD [] ++ [e])
        else lookupK acc k2 := by
  induction acc with
  | nil =>
      by_cases h : k2 = k
      · subst h; simp [addRow, lookupK]
      · simp [addRow, lookupK, h, Ne.symm h]
  | cons a rest ih =>
      obtain ⟨ka, va⟩ := a
      by_cases hka : ka = k
      · subst hka
        by_cases h2 : k2 = ka
        · subst h2; simp [addRow, lookupK]
        · simp [addRow, lookupK, h2, Ne.symm h2]
      · by_cases h2 : k2 = ka
        · subst h2
          simp [addRow, lookupK, hka]
        · simp [addRow, lookupK, hka, h2, Ne.symm h2, ih]

/-- Helper: after the row loop, the group of every key is its starting
content extended by the contributions of the processed rows, in order. -/
theorem lookupK_buildRows :
    ∀ (rows : List JVal) (acc tmp : ApiDict),
      buildRows acc rows = .ok tmp →
      ∀ k, (groupOf rows k = [] → lookupK tmp k = lookupK acc k)
        ∧ (groupOf rows k ≠ [] →
            lookupK tmp k = some ((lookupK acc k).getD [] ++ groupOf rows k)) := by
  intro rows
  induction rows with
  | nil =>
      intro acc tmp hb k
      have hacc : acc = tmp := by simpa [buildRows] using hb
      subst hacc
      exact ⟨fun _ => rfl, fun hne => absurd rfl hne⟩
  | cons row rest ih =>
      intro acc tmp hb k
      unfold buildRows at hb
      cases hrf : rowFields row with
      | error e => simp [hrf] at hb
      | ok f =>
          simp only [hrf] at hb
          by_cases hk : keepRow f.1 f.2.1 f.2.2 = true
          · rw [if_pos hk] at hb
            cases hsk : symKey f.1 with
            | error e => simp [hsk] at hb
            | ok k1 =>
                simp only [hsk] at hb
                have ihr := ih _ _ hb k
                by_cases hkk : k1 = k
                · subst hkk
                  have hre : rowEntry k1 row = some (f.2.1, f.2.2) := by
                    simp [rowEntry, hrf, hk, hsk]
                  have hgr : groupOf (row :: rest) k1
                      = (f.2.1, f.2.2) :: groupOf rest k1 := by
                    simp [groupOf, List.filterMap_cons, hre]
                  constructor
                  · intro hg
                    rw [hgr] at hg
                    simp at hg
                  · intro _
                    rw [hgr]
                    by_cases hg : groupOf rest k1 = []
                    · have h1 := ihr.1 hg
                      rw [h1, lookupK_addRow, if_pos rfl, hg]
                    · have h1 := ihr.2 hg
                      rw [h1, lookupK_addRow, if_pos rfl]
                      simp
                · have hre : rowEntry k row = none := by
                    simp [rowEntry, hrf, hk, hsk, hkk]
                  have hgr : groupOf (row :: rest) k = groupOf rest k := by
                    simp [groupOf, List.filterMap_cons, hre]
                  have ha : lookupK (addRow acc k1 (f.2.1, f.2.2)) k = lookupK acc k := by
                    rw [lookupK_addRow, if_neg (fun hh => hkk hh.symm)]
                  rw [hgr]
                  exact ⟨fun hg => (ihr.1 hg).trans ha,
                    fun hg => by rw [ihr.2 hg, ha]⟩
          · rw [if_neg hk] at hb
            have ihr := ih _ _ hb k
            have hre : rowEntry k row = none := by
              simp [rowEntry, hrf, hk]
            have hgr : groupOf (row :: rest) k = groupOf rest k := by
              simp [groupOf, List.filterMap_cons, hre]
            rw [hgr]
            exact ihr

/-- Helper: sorting the groups sorts every lookup result. -/
theorem lookupK_sortGroups :
    ∀ (tmp res : ApiDict), sortGroups tmp = .ok res →
      ∀ k, lookupK res k
        = (lookupK tmp k).map (fun v => List.insertionSort entryLe v) := by
  intro tmp
  induction tmp with
  | nil =>
      intro res h k
      have : ([] : ApiDict) = res := by simpa [sortGroups] using h
      subst this
      simp [lookupK]
  | cons a rest ih =>
      obtain ⟨ka, va⟩ := a
      intro res h k
      unfold sortGroups at h
      cases hs : sortE va with
      | error e => simp [hs] at h
      | ok v2 =>
          simp only [hs] at h
          cases hr : sortGroups rest with
          | error e => simp [hr] at h
          | ok r =>
              simp only [hr] at h
              have hres : (ka, v2) :: r = res := by simpa using h
              subst hres
              have hv2 : v2 = List.insertionSort entryLe va := by
                unfold sortE at hs
                by_cases hsk : sortableKeys va = true
                · rw [if_pos hsk] at hs
                  exact (Except.ok.inj hs).symm
                · rw [if_neg hsk] at hs
                  simp at hs
              by_cases hkk : ka = k
              · subst hkk
                simp [lookupK, hv2]
              · simp only [lookupK, if_neg hkk]
                exact ih r hr k

/-- C8: in the flat-list branch, a row failing the keep test (missing
or falsy symbol, date or close) contributes nothing — removing it from
the row list leaves the result of fetch_prices unchanged, so one
invalid row does not affect the series of the other rows; and whenever
normalization succeeds, fetch_prices returns it and every symbol series
it contains is sorted ascending by the date key and is a permutation of
exactly the kept rows of that symbol, grouped in row order. -/
theorem C8_flat_list_normalization :
    (∀ (symbols : List String) (from_date to_date : String)
        (l1 l2 : List JVal) (kvs : List (String × JVal)),
        keepRow (symOf kvs) (dateOf kvs) (closeOf kvs) = false →
        fetch_prices symbols from_date to_date
            (.response 200 (.list (l1 ++ JVal.obj kvs :: l2)))
          = fetch_prices symbols from_date to_date (.response 200 (.list (l1 ++ l2))))
    ∧ (∀ (rows : List JVal) (res : ApiDict),
        normalizeList rows = .ok res →
        (∀ (symbols : List String) (from_date to_date : String),
          fetch_prices symbols from_date to_date (.response 200 (.list rows)) = res)
        ∧ ∀ (k : JKey) (ser : List (JVal × JVal)),
            lookupK res k = some ser →
            ser.Pairwise entryLe ∧ ser.Perm (groupOf rows k)) := by
  constructor
  · intro symbols fd td l1 l2 kvs hkeep
    have key : ∀ (l1 : List JVal) (acc : ApiDict),
        buildRows acc (l1 ++ JVal.obj kvs :: l2) = buildRows acc (l1 ++ l2) := by
      intro l1
      induction l1 with
      | nil =>
          intro acc
          have hrf : rowFields (JVal.obj kvs)
              = .ok (symOf kvs, dateOf kvs, closeOf kvs) := rfl
          simp [buildRows, hrf, hkeep]
      | cons r rest ih =>
          intro acc
          simp only [List.cons_append]
          unfold buildRows
          cases hrf : rowFields r with
          | error e => simp only [hrf]
          | ok f =>
              simp only [hrf]
              by_cases hk : keepRow f.1 f.2.1 f.2.2 = true
              · rw [if_pos hk, if_pos hk]
                cases hsk : symKey f.1 with
                | error e => simp only [hsk]
                | ok k1 =>
                    simp only [hsk]
                    exact ih _
              · rw [if_neg hk, if_neg hk]
                exact ih _
    simp only [fetch_prices, normalizeResponse, normalizeList]
    rw [key l1]
  · intro rows res hnorm
    unfold normalizeList at hnorm
    cases hb : buildRows [] rows with
    | error e => simp [hb] at hnorm
    | ok tmp =>
        simp only [hb] at hnorm
        constructor
        · intro symbols fd td
          simp [fetch_prices, normalizeResponse, normalizeList, hb, hnorm]
        · intro k ser hser
          have h1 := lookupK_sortGroups tmp res hnorm k
          rw [hser] at h1
          cases hl : lookupK tmp k with
          | none => rw [hl] at h1; simp at h1
          | some v =>
              rw [hl] at h1
              have hv : ser = List.insertionSort entryLe v := by
                simpa using h1
              have h2 := lookupK_buildRows rows [] tmp hb k
              by_cases hg : groupOf rows k = []
              · have h3 := h2.1 hg
                rw [hl] at h3
                simp [lookupK] at h3
              · have h3 := h2.2 hg
                rw [hl] at h3
                have hvg : v = groupOf rows k := by
                  simpa [lookupK] using h3
                constructor
                · rw [hv]
                  exact List.sorted_insertionSort entryLe v
                · rw [hv, hvg]
                  exact List.perm_insertionSort entryLe (groupOf rows k)

/-- Witness for C8: dropping the row with a missing close leaves the
series of the valid AAPL row untouched. -/
theorem C8_flat_list_normalization_witness :
    fetch_prices ["AAPL"] "2024-01-01" "2024-01-31"
        (.response 200 (.list
          [JVal.obj [("symbol", .str "AAPL"), ("date", .str "2024-01-02"),
                     ("close", .num 1)],
           JVal.obj [("symbol", .str "MSFT"), ("date", .str "2024-01-02")]]))
      = fetch_prices ["AAPL"] "2024-01-01" "2024-01-31"
          (.response 200 (.list
            [JVal.obj [("symbol", .str "AAPL"), ("date", .str "2024-01-02"),
                       ("close", .num 1)]])) :=
  C8_flat_list_normalization.1 ["AAPL"] "2024-01-01" "2024-01-31"
    [JVal.obj [("symbol", .str "AAPL"), ("date", .str "2024-01-02"),
               ("close", .num 1)]]
    [] [("symbol", .str "MSFT"), ("date", .str "2024-01-02")] rfl

end DM
